import Mathlib

/-!
Shallow embedding of the SSH config sync core of the `mmdot` repository
(`internal/ssh/config.go`, `internal/ssh/parser.go`,
`internal/commands/cmd_ssh.go`).

Modeling conventions:
* Go strings are Lean `String`s; every Go string helper
  (`strings.TrimSpace`, `strings.HasPrefix`, ...) is re-implemented
  structurally over `String.data` so that all definitions are executable
  and proofs can proceed by structural recursion.
* A physical config file is modeled as its list of scanned lines:
  `bufio.Scanner` yields the file line by line, and both writers emit
  whole lines through `fmt.Fprintln`.
-/

/-- Whitespace test used by `strings.TrimSpace` (the characters relevant
to config lines; agrees with Go for ASCII input). -/
def goIsSpace (c : Char) : Bool :=
  c == ' ' || c == '\t' || c == '\n' || c == '\r'

def trimLeftChars : List Char → List Char
  | [] => []
  | c :: cs => if goIsSpace c then trimLeftChars cs else c :: cs

def trimRightChars (cs : List Char) : List Char :=
  (trimLeftChars cs.reverse).reverse

/-- Go `strings.TrimSpace`. -/
def goTrimSpace (s : String) : String :=
  String.mk (trimRightChars (trimLeftChars s.data))

/-- Go `strings.HasPrefix`. -/
def goStartsWith (s p : String) : Bool := p.data.isPrefixOf s.data

/-- Go `strings.HasSuffix`. -/
def goEndsWith (s p : String) : Bool := p.data.isSuffixOf s.data

/-- Go `strings.TrimPrefix`. -/
def goStripLeading (s p : String) : String :=
  if goStartsWith s p then String.mk (s.data.drop p.data.length) else s

/-- Go `strings.TrimSuffix`. -/
def goStripTrailing (s p : String) : String :=
  if goEndsWith s p then String.mk (s.data.take (s.data.length - p.data.length)) else s

def goLowerChar (c : Char) : Char :=
  if 'A' ≤ c && c ≤ 'Z' then Char.ofNat (c.toNat + 32) else c

/-- Go `strings.ToLower` (ASCII case mapping, which is all the parser needs). -/
def goToLower (s : String) : String := String.mk (s.data.map goLowerChar)

/-- Go `trimmed[5:]` on an ASCII-headed string, modeled as dropping
characters. -/
def goDropChars (s : String) (n : Nat) : String := String.mk (s.data.drop n)

def splitNewlineChars : List Char → List (List Char)
  | [] => [[]]
  | c :: cs =>
    let rest := splitNewlineChars cs
    if c == '\n' then [] :: rest
    else
      match rest with
      | [] => [[c]]
      | g :: gs => (c :: g) :: gs

/-- Go `strings.Split(s, "\n")`. -/
def goSplitNewline (s : String) : List String :=
  (splitNewlineChars s.data).map String.mk

def splitFirstColon : List Char → Option (List Char × List Char)
  | [] => none
  | c :: cs =>
    if c == ':' then some ([], cs)
    else
      match splitFirstColon cs with
      | none => none
      | some (a, b) => some (c :: a, b)

/-- Go `strings.SplitN(forward, ":", 2)`. -/
def goSplitN2Colon (s : String) : List String :=
  match splitFirstColon s.data with
  | none => [s]
  | some (a, b) => [String.mk a, String.mk b]

def strConcat : List String → String
  | [] => ""
  | s :: ss => s ++ strConcat ss

/-! ## Data model (`internal/ssh/config.go`) -/

/-- `ssh.Host`: a desired host record. -/
structure Host where
  name : String
  hostname : String
  user : String
  port : Int
  identityFile : String
  proxyJump : String
  forwardAgent : Option Bool
  forwardX11 : Option Bool
  localForward : List String
  remoteForward : List String
  custom : List String
  source : String
  priority : Int
deriving Repr, DecidableEq, Inhabited

/-- `ssh.ParsedHost`: a host entry recovered from the physical file. -/
structure ParsedHost where
  name : String
  lines : List String
  comments : List String
  source : String
deriving Repr, DecidableEq, Inhabited

def yesNo (b : Bool) : String := if b then "yes" else "no"

/-- The sequence of `sb.WriteString` calls performed by `Host.String`
(`internal/ssh/config.go`); a forward with no separator contributes the
empty string, matching Go writing nothing for it. -/
def Host.segments (h : Host) : List String :=
  ["Host " ++ h.name ++ "\n"]
  ++ (if h.hostname ≠ "" then ["    Hostname " ++ h.hostname ++ "\n"] else [])
  ++ (if h.user ≠ "" then ["    User " ++ h.user ++ "\n"] else [])
  ++ (if h.port > 0 then ["    Port " ++ toString h.port ++ "\n"] else [])
  ++ (if h.identityFile ≠ "" then ["    IdentityFile " ++ h.identityFile ++ "\n"] else [])
  ++ (if h.proxyJump ≠ "" then ["    ProxyJump " ++ h.proxyJump ++ "\n"] else [])
  ++ (match h.forwardAgent with
      | some b => ["    ForwardAgent " ++ yesNo b ++ "\n"]
      | none => [])
  ++ (match h.forwardX11 with
      | some b => ["    ForwardX11 " ++ yesNo b ++ "\n"]
      | none => [])
  ++ h.localForward.map (fun f =>
      match goSplitN2Colon f with
      | [p0, p1] => "    LocalForward " ++ p0 ++ " " ++ p1 ++ "\n"
      | _ => "")
  ++ h.remoteForward.map (fun f =>
      match goSplitN2Colon f with
      | [p0, p1] => "    RemoteForward " ++ p0 ++ " " ++ p1 ++ "\n"
      | _ => "")
  ++ h.custom.map (fun c => "    " ++ c ++ "\n")

/-- `Host.String`: concatenate the builder writes, then trim the single
trailing newline. -/
def Host.render (h : Host) : String :=
  goStripTrailing (strConcat h.segments) "\n"

/-- `Host.Validate` returning the error message, `none` on success. -/
def Host.validate (h : Host) : Option String :=
  if h.name == "" then some "host name cannot be empty"
  else if h.hostname == "" then some ("hostname cannot be empty for host " ++ h.name)
  else if h.port < 0 || h.port > 65535 then
    some ("invalid port " ++ toString h.port ++ " for host " ++ h.name)
  else none

/-! ## Merge, validation, dedup (`internal/ssh/parser.go`) -/

/-- `fmt.Sprintf("managed:%s", sourceName)`. -/
def managedTag (sourceName : String) : String := "managed:" ++ sourceName

/-- The `ParsedHost` appended by `MergeHosts` for a desired host. -/
def serializedEntry (sourceName : String) (h : Host) : ParsedHost :=
  ⟨h.name, goSplitNewline (Host.render h), [], managedTag sourceName⟩

/-- `Parser.MergeHosts`: walk the existing entries, skipping entries of
the source being replaced, skipping entries whose name collides with a
desired host when not tagged `local`, and otherwise keeping the entry
exactly when `preserveLocal` is set and it is tagged `local`; then append
one freshly serialized entry per desired host. -/
def mergeHosts (preserveLocal : Bool) (existing : List ParsedHost)
    (managed : List Host) (sourceName : String) : List ParsedHost :=
  existing.filter (fun e =>
    if e.source == managedTag sourceName then false
    else if managed.any (fun h => h.name == e.name) && e.source != "local" then false
    else preserveLocal && e.source == "local")
  ++ managed.map (serializedEntry sourceName)

def squote : String := String.mk [Char.ofNat 39]

/-- Error text for a duplicate host name, naming both sources. -/
def dupErr (n s1 s2 : String) : String :=
  "duplicate host name " ++ squote ++ n ++ squote ++ " found in " ++ s1 ++ " and " ++ s2

/-- Loop body state of `ValidateHosts`: `seen` is the name-to-source map,
modeled as an association list in insertion order (each name is inserted
at most once because a second occurrence errors out first). -/
def validateHostsAux : List Host → List (String × String) → Except String Unit
  | [], _ => Except.ok ()
  | h :: rest, seen =>
    match Host.validate h with
    | some msg => Except.error ("invalid host " ++ h.name ++ ": " ++ msg)
    | none =>
      match seen.lookup h.name with
      | some src => Except.error (dupErr h.name src h.source)
      | none => validateHostsAux rest (seen ++ [(h.name, h.source)])

/-- `ValidateHosts`. -/
def ValidateHosts (hosts : List Host) : Except String Unit :=
  validateHostsAux hosts []

def replaceEntry : List (String × Host) → String → Host → List (String × Host)
  | [], _, _ => []
  | (k, v) :: rest, n, h =>
    if k == n then (k, h) :: rest else (k, v) :: replaceEntry rest n h

/-- Loop body of `DeduplicateHosts`: keep the stored host unless the new
one has strictly higher priority. -/
def dedupStep (m : List (String × Host)) (host : Host) : List (String × Host) :=
  match m.lookup host.name with
  | some existing =>
    if host.priority > existing.priority then replaceEntry m host.name host else m
  | none => m ++ [(host.name, host)]

/-- The `hostMap` built by `DeduplicateHosts`; the Go map is modeled as an
association list in key-insertion order.  Go's map value iteration order
is unspecified, so all claims about the result are stated through this
map's per-name content. -/
def hostMap (hosts : List Host) : List (String × Host) :=
  hosts.foldl dedupStep []

/-- `DeduplicateHosts` (result listed in key-insertion order). -/
def DeduplicateHosts (hosts : List Host) : List Host :=
  (hostMap hosts).map Prod.snd

/-! ## Parser (`Parser.Parse` in `internal/ssh/parser.go`) -/

/-- Constant `markerPrefix` of `parser.go` (the BEGIN sentinel). -/
def beginMarker : String := "# === BEGIN MMDOT MANAGED:"

/-- Constant `markerSuffix` of `parser.go` (the END sentinel). -/
def endMarker : String := "# === END MMDOT MANAGED:"

/-- Mutable locals of the `Parse` scan loop. -/
structure ParseState where
  hosts : List ParsedHost
  currentHost : Option ParsedHost
  inManagedSection : Bool
  managedSectionName : String
  comments : List String
deriving Repr, DecidableEq

/-- Flush the open host, as done on a `Host` directive and at end of
input. -/
def flushHost (st : ParseState) : List ParsedHost :=
  match st.currentHost with
  | some h => st.hosts ++ [h]
  | none => st.hosts

/-- Name recovered from a BEGIN marker line:
`TrimSpace(TrimSuffix(TrimSpace(TrimPrefix(trimmed, markerPrefix)), "==="))`. -/
def sectionName (trimmed : String) : String :=
  goTrimSpace (goStripTrailing (goTrimSpace (goStripLeading trimmed beginMarker)) "===")

/-- One iteration of the `Parse` scan loop. -/
def parseLine (preserveLocal : Bool) (st : ParseState) (line : String) : ParseState :=
  let trimmed := goTrimSpace line
  if goStartsWith trimmed beginMarker then
    { st with inManagedSection := true, managedSectionName := sectionName trimmed }
  else if goStartsWith trimmed endMarker then
    { st with inManagedSection := false, managedSectionName := "" }
  else if st.inManagedSection && preserveLocal then st
  else if goStartsWith trimmed "#" then
    { st with comments := st.comments ++ [line] }
  else if trimmed == "" then
    match st.currentHost with
    | some h => { st with currentHost := some { h with lines := h.lines ++ [line] } }
    | none => st
  else if goStartsWith (goToLower trimmed) "host " then
    { st with
      hosts := flushHost st
      currentHost := some
        ⟨goTrimSpace (goDropChars trimmed 5), [line], st.comments,
         if st.inManagedSection then managedTag st.managedSectionName else "local"⟩
      comments := [] }
  else
    match st.currentHost with
    | some h => { st with currentHost := some { h with lines := h.lines ++ [line] } }
    | none => st

def initialParseState : ParseState := ⟨[], none, false, "", []⟩

/-- `Parser.Parse` over the scanned lines of the input. -/
def parseConfig (preserveLocal : Bool) (ls : List String) : List ParsedHost :=
  flushHost (ls.foldl (parseLine preserveLocal) initialParseState)

/-! ## Writers (`internal/ssh/parser.go`) -/

/-- Blocks printed with one blank line between them (emitted for
`i < len-1` inside the writer loops). -/
def blankSepBlocks : List (List String) → List String
  | [] => []
  | [b] => b
  | b :: bs => b ++ [""] ++ blankSepBlocks bs

/-- `writeLinearConfig`: comments then raw lines of each entry, one blank
line between entries. -/
def writeLinearConfig : List ParsedHost → List String
  | [] => []
  | [h] => h.comments ++ h.lines
  | h :: rest => h.comments ++ h.lines ++ [""] ++ writeLinearConfig rest

/-- `grouped[host.Source] = append(grouped[host.Source], host)`: the Go
map from source tag to its hosts, modeled as an association list in
key-insertion order. -/
def groupInsert : List (String × List ParsedHost) → ParsedHost → List (String × List ParsedHost)
  | [], h => [(h.source, [h])]
  | (k, v) :: rest, h =>
    if k == h.source then (k, v ++ [h]) :: rest else (k, v) :: groupInsert rest h

def groupedOf (hosts : List ParsedHost) : List (String × List ParsedHost) :=
  hosts.foldl groupInsert []

/-- The `sources` slice: distinct source tags in first-appearance order. -/
def collectSources (hosts : List ParsedHost) : List String :=
  hosts.foldl (fun acc h => if acc.contains h.source then acc else acc ++ [h.source]) []

/-- One managed section: BEGIN marker, hosts (lines only, blank line
between hosts), END marker, then a blank line. -/
def managedSection (sectionTag : String) (hs : List ParsedHost) : List String :=
  [beginMarker ++ " " ++ goStripLeading sectionTag "managed:" ++ " ==="]
  ++ blankSepBlocks (hs.map (·.lines))
  ++ [endMarker ++ " " ++ goStripLeading sectionTag "managed:" ++ " ===", ""]

/-- `writeGroupedConfig`: the local block first (comments and lines per
host, blank lines between hosts, one blank line after the block), then
every non-`local` source in first-appearance order as a managed
section. -/
def writeGroupedConfig (hosts : List ParsedHost) : List String :=
  let grouped := groupedOf hosts
  let sources := collectSources hosts
  let localHosts := (grouped.lookup "local").getD []
  (if localHosts.isEmpty then []
   else blankSepBlocks (localHosts.map (fun h => h.comments ++ h.lines)) ++ [""])
  ++ (sources.filterMap (fun source =>
        if source == "local" then none
        else
          let hs := (grouped.lookup source).getD []
          if hs.isEmpty then none
          else some (managedSection source hs))).flatten

/-! ## ParseFile (`Parser.ParseFile`) -/

/-- Outcome of `os.Open` on the config path, abstracting the file
system: the file is missing, opening fails for another reason, or the
file exists with the given scanned lines. -/
inductive OpenOutcome where
  | notExist
  | failure (msg : String)
  | content (ls : List String)
deriving Repr, DecidableEq

/-- `Parser.ParseFile`: a missing file yields the empty list, any other
open failure is an error, otherwise the file is parsed. -/
def parseFile (preserveLocal : Bool) (r : OpenOutcome) : Except String (List ParsedHost) :=
  match r with
  | OpenOutcome.notExist => Except.ok []
  | OpenOutcome.failure msg => Except.error ("failed to open SSH config: " ++ msg)
  | OpenOutcome.content ls => Except.ok (parseConfig preserveLocal ls)

/-! ## Specification-side definitions

These definitions are phrased after the spec's words and are only
compared against the source-side definitions above. -/

/-- Spec: a forward string is split on its first `:` separator; a string
with no separator is omitted. -/
def forwardLineSpec (pre : String) (f : String) : Option String :=
  match splitFirstColon f.data with
  | some (a, b) => some (pre ++ String.mk a ++ " " ++ String.mk b)
  | none => none

/-- Spec: serialization emits the Host line first, then one line per set
field in the fixed order Hostname, User, Port, IdentityFile, ProxyJump,
ForwardAgent, ForwardX11, LocalForward entries, RemoteForward entries,
Custom lines; unset fields emit nothing. -/
def serializeSpecLines (h : Host) : List String :=
  ["Host " ++ h.name]
  ++ (if h.hostname ≠ "" then ["    Hostname " ++ h.hostname] else [])
  ++ (if h.user ≠ "" then ["    User " ++ h.user] else [])
  ++ (if h.port > 0 then ["    Port " ++ toString h.port] else [])
  ++ (if h.identityFile ≠ "" then ["    IdentityFile " ++ h.identityFile] else [])
  ++ (if h.proxyJump ≠ "" then ["    ProxyJump " ++ h.proxyJump] else [])
  ++ (match h.forwardAgent with
      | some b => ["    ForwardAgent " ++ yesNo b]
      | none => [])
  ++ (match h.forwardX11 with
      | some b => ["    ForwardX11 " ++ yesNo b]
      | none => [])
  ++ h.localForward.filterMap (forwardLineSpec "    LocalForward ")
  ++ h.remoteForward.filterMap (forwardLineSpec "    RemoteForward ")
  ++ h.custom.map (fun c => "    " ++ c)

/-- A line the parser treats as a comment: starts with `#` after
trimming and is not a section marker. -/
def isCommentLine (l : String) : Bool :=
  goStartsWith (goTrimSpace l) "#"
    && !goStartsWith (goTrimSpace l) beginMarker
    && !goStartsWith (goTrimSpace l) endMarker

/-- A raw body line of a host entry: not a marker, not a comment, not a
`Host` directive (blank lines qualify). -/
def isBodyLine (l : String) : Bool :=
  !goStartsWith (goTrimSpace l) beginMarker
    && !goStartsWith (goTrimSpace l) endMarker
    && !goStartsWith (goTrimSpace l) "#"
    && !goStartsWith (goToLower (goTrimSpace l)) "host "

/-- A `Host` directive line: not a marker, not a comment, not blank, and
its lowercased trim starts with `host `. -/
def isHostLine (l : String) : Bool :=
  !goStartsWith (goTrimSpace l) beginMarker
    && !goStartsWith (goTrimSpace l) endMarker
    && !goStartsWith (goTrimSpace l) "#"
    && !(goTrimSpace l == "")
    && goStartsWith (goToLower (goTrimSpace l)) "host "

/-- Well-formed parsed entry: its raw lines are a `Host` directive
followed by body lines, and its comment block holds comment lines. -/
def wfParsed (e : ParsedHost) : Bool :=
  (match e.lines with
   | [] => false
   | first :: tail => isHostLine first && tail.all isBodyLine)
  && e.comments.all isCommentLine

/-- Raw-line lists of the entries with the writer's synthetic blank
separator appended to every entry but the last. -/
def linesWithSeps : List ParsedHost → List (List String)
  | [] => []
  | [e] => [e.lines]
  | e :: es => (e.lines ++ [""]) :: linesWithSeps es

/-- Spec: `h` has maximal priority within the group `g`. -/
def allLe (g : List Host) (h : Host) : Bool :=
  g.all (fun g2 => g2.priority ≤ h.priority)

/-- Spec: the earliest-occurring entry of the group whose priority is
maximal in the group. -/
def firstMax (g : List Host) : Option Host := g.find? (allLe g)

/-- Per-name projection of the dedup loop: keep the current host unless
the next one has strictly higher priority. -/
def foldKeep : Option Host → List Host → Option Host
  | cur, [] => cur
  | none, h :: t => foldKeep (some h) t
  | some c, h :: t =>
    if h.priority > c.priority then foldKeep (some h) t else foldKeep (some c) t

/-- Spec: grouped output is the `local` entries first as one block with a
blank line after, then, for every other distinct tag in first-appearance
order, that tag's entries wrapped in BEGIN/END markers. -/
def writeGroupedSpec (hosts : List ParsedHost) : List String :=
  (if (hosts.filter (fun h => h.source == "local")).isEmpty then []
   else
     blankSepBlocks ((hosts.filter (fun h => h.source == "local")).map
         (fun h => h.comments ++ h.lines)) ++ [""])
  ++ ((collectSources hosts).filterMap (fun s =>
        if s == "local" then none
        else
          if (hosts.filter (fun h => h.source == s)).isEmpty then none
          else some (managedSection s (hosts.filter (fun h => h.source == s))))).flatten

/-! ## General lemmas -/

theorem strConcat_append (a b : List String) :
    strConcat (a ++ b) = strConcat a ++ strConcat b := by
  induction a with
  | nil => rfl
  | cons s ss ih =>
    simp only [List.cons_append, strConcat, List.append_eq, ih, String.append_assoc]

theorem managedTag_ne_local (s : String) : managedTag s ≠ "local" := by
  intro h
  have h2 : (managedTag s).data = "local".data := congrArg String.data h
  rw [managedTag, String.data_append] at h2
  have h3 : "managed:".data = ['m', 'a', 'n', 'a', 'g', 'e', 'd', ':'] := rfl
  have h4 : "local".data = ['l', 'o', 'c', 'a', 'l'] := rfl
  rw [h3, h4] at h2
  simp at h2

theorem mergeHosts_false_eq (existing : List ParsedHost) (managed : List Host) (src : String) :
    mergeHosts false existing managed src = managed.map (serializedEntry src) := by
  unfold mergeHosts
  have hnil : existing.filter (fun e =>
      if e.source == managedTag src then false
      else if managed.any (fun h => h.name == e.name) && e.source != "local" then false
      else false && (e.source == "local")) = [] := by
    rw [List.filter_eq_nil_iff]
    intro e _
    simp only [Bool.false_and, ite_self, Bool.false_eq_true, not_false_eq_true]
  rw [hnil, List.nil_append]

/-! ## C1 — MergeHosts retention -/

/-- C1 counterexample: the claim says an existing entry tagged
`managed:B` must be retained when merging source `A`, but `MergeHosts`
drops it (it only ever keeps `local` entries, and only when
preserve-local is set). -/
theorem mergeHosts_drops_other_source_cex :
    mergeHosts true [⟨"b", ["Host b"], [], "managed:B"⟩] [] "A" = []
      ∧ mergeHosts true [⟨"b", ["Host b"], [], "managed:B"⟩] [] "A"
          ≠ [⟨"b", ["Host b"], [], "managed:B"⟩] :=
  ⟨by decide, by decide⟩

/-- C1 (amended): `MergeHosts` retains an existing entry exactly when
preserve-local is enabled and the entry is tagged `local` (in original
relative order); every entry tagged `managed:<B>` for any source `B` —
the replaced source or any other — is dropped, as is every `local` entry
when preserve-local is disabled; then one freshly serialized entry per
desired host tagged `managed:<s>` is appended in supplied order. -/
theorem mergeHosts_keeps_exactly_preserved_locals (pl : Bool)
    (existing : List ParsedHost) (managed : List Host) (src : String) :
    mergeHosts pl existing managed src
      = existing.filter (fun e => pl && (e.source == "local"))
        ++ managed.map (serializedEntry src) := by
  unfold mergeHosts
  congr 1
  apply List.filter_congr
  intro e _
  cases hL : (e.source == "local") with
  | false =>
    cases hA : (e.source == managedTag src) <;>
      cases hB : managed.any (fun h => h.name == e.name) <;>
        simp [hA, hB, hL, bne]
  | true =>
    have hsrc : e.source = "local" := by
      simpa using hL
    have hA : (e.source == managedTag src) = false := by
      rw [hsrc]
      have : "local" ≠ managedTag src := fun h => managedTag_ne_local src h.symm
      simpa using this
    simp [hA, hL, bne]

/-! ## C2 — idempotence of the merge cycle -/

/-- C2 counterexample: with preserve-local enabled, one untouched local
entry and one desired host, re-parsing the grouped output appends the
writer's synthetic blank lines to the local entry's raw lines, so
`Merge(Parse(Write(Merge(E, D, s))), D, s)` differs from
`Merge(E, D, s)`. -/
theorem merge_cycle_not_idempotent_cex :
    mergeHosts true
        (parseConfig true (writeGroupedConfig
          (mergeHosts true [⟨"a", ["Host a", "    Hostname x"], [], "local"⟩]
            [⟨"n", "h", "", 0, "", "", none, none, [], [], [], "", 0⟩] "p")))
        [⟨"n", "h", "", 0, "", "", none, none, [], [], [], "", 0⟩] "p"
      ≠ mergeHosts true [⟨"a", ["Host a", "    Hostname x"], [], "local"⟩]
          [⟨"n", "h", "", 0, "", "", none, none, [], [], [], "", 0⟩] "p" := by
  decide

/-- C2 (amended): the merge-parse-write-merge cycle is idempotent when
preserve-local is disabled (the re-merge replaces every entry wholesale);
with preserve-local enabled it fails on retained local entries, whose
raw lines grow by the writer's synthetic blank separator lines on every
re-parse. -/
theorem merge_cycle_idempotent_without_preserve_local
    (existing : List ParsedHost) (desired : List Host) (src : String) :
    mergeHosts false
        (parseConfig false (writeGroupedConfig (mergeHosts false existing desired src)))
        desired src
      = mergeHosts false existing desired src := by
  rw [mergeHosts_false_eq, mergeHosts_false_eq]

/-! ## C9 — ParseFile error handling -/

/-- C9: `ParseFile` on a missing file returns the empty host list and no
error; any other failure to open the file returns an error. -/
theorem parseFile_first_run_and_failure (pl : Bool) (msg : String) :
    parseFile pl OpenOutcome.notExist = Except.ok []
      ∧ parseFile pl (OpenOutcome.failure msg)
          = Except.error ("failed to open SSH config: " ++ msg) :=
  ⟨rfl, rfl⟩

/-! ## C7 — Host serialization -/

theorem strConcat_forwards (pre : String) (fs : List String) :
    strConcat (fs.map (fun f =>
        match goSplitN2Colon f with
        | [p0, p1] => pre ++ p0 ++ " " ++ p1 ++ "\n"
        | _ => ""))
      = strConcat ((fs.filterMap (forwardLineSpec pre)).map (· ++ "\n")) := by
  induction fs with
  | nil => rfl
  | cons f fs ih =>
    simp only [List.map_cons, List.filterMap_cons]
    cases hsp : splitFirstColon f.data with
    | none =>
      have hg : goSplitN2Colon f = [f] := by simp [goSplitN2Colon, hsp]
      simp only [forwardLineSpec, hsp, hg, strConcat, ih]
      rfl
    | some ab =>
      obtain ⟨a, b⟩ := ab
      have hg : goSplitN2Colon f = [String.mk a, String.mk b] := by
        simp [goSplitN2Colon, hsp]
      simp only [forwardLineSpec, hsp, hg, List.map_cons, strConcat, ih]

theorem strConcat_map_ite (c : Prop) [Decidable c] (x : String) :
    strConcat (List.map (fun s => s ++ "\n") (if c then [x] else []))
      = strConcat (if c then [x ++ "\n"] else []) := by
  split <;> rfl

theorem strConcat_map_opt (o : Option Bool) (p : String) :
    strConcat (List.map (fun s => s ++ "\n")
        (match o with
         | some b => [p ++ yesNo b]
         | none => []))
      = strConcat (match o with
         | some b => [p ++ yesNo b ++ "\n"]
         | none => []) := by
  cases o <;> rfl

theorem map_newline_custom (l : List String) :
    List.map (fun s => s ++ "\n") (List.map (fun c => "    " ++ c) l)
      = List.map (fun c => "    " ++ c ++ "\n") l := by
  induction l with
  | nil => rfl
  | cons c cs ih => simp only [List.map_cons, ih]

theorem host_segments_concat (h : Host) :
    strConcat h.segments = strConcat ((serializeSpecLines h).map (· ++ "\n")) := by
  unfold Host.segments serializeSpecLines
  simp only [List.map_append, strConcat_append]
  rw [strConcat_forwards, strConcat_forwards, map_newline_custom,
    strConcat_map_ite, strConcat_map_ite, strConcat_map_ite, strConcat_map_ite,
    strConcat_map_ite, strConcat_map_opt, strConcat_map_opt]
  rfl

/-- C7: serialization emits `Host <name>` first, then one line per set
field in the fixed order Hostname, User, Port, IdentityFile, ProxyJump,
ForwardAgent, ForwardX11, LocalForward entries, RemoteForward entries,
Custom lines, unset fields emitting nothing and the single trailing
newline trimmed; forward strings split on the first `:` separator and a
forward with no separator is silently omitted — checked on the claim's
example host. -/
theorem host_render_spec_order :
    (∀ h : Host, Host.render h
        = goStripTrailing (strConcat ((serializeSpecLines h).map (· ++ "\n"))) "\n")
      ∧ Host.render ⟨"n", "h", "", 0, "", "", none, none,
          ["8080:localhost:80", "bad"], [], [], "", 0⟩
          = "Host n\n    Hostname h\n    LocalForward 8080 localhost:80" :=
  ⟨fun h => by rw [Host.render, host_segments_concat], by decide⟩

/-! ## C3 — comment buffering and host-body lines -/

theorem parseLine_comment (pl : Bool) (st : ParseState) (l : String)
    (hm : (st.inManagedSection && pl) = false) (hc : isCommentLine l = true) :
    parseLine pl st l = { st with comments := st.comments ++ [l] } := by
  simp only [isCommentLine, Bool.and_eq_true, Bool.not_eq_true'] at hc
  obtain ⟨⟨h1, h2⟩, h3⟩ := hc
  simp [parseLine, h1, h2, h3, hm]

theorem parseLine_body (pl : Bool) (st : ParseState) (l : String) (h : ParsedHost)
    (hm : (st.inManagedSection && pl) = false) (hb : isBodyLine l = true)
    (hcur : st.currentHost = some h) :
    parseLine pl st l
      = { st with currentHost := some { h with lines := h.lines ++ [l] } } := by
  simp only [isBodyLine, Bool.and_eq_true, Bool.not_eq_true'] at hb
  obtain ⟨⟨⟨h1, h2⟩, h3⟩, h4⟩ := hb
  by_cases hblank : (goTrimSpace l == "") = true
  · simp [parseLine, h1, h2, h3, h4, hm, hblank, hcur]
  · rw [Bool.not_eq_true] at hblank
    simp [parseLine, h1, h2, h3, h4, hm, hblank, hcur]

theorem parseLine_body_none (pl : Bool) (st : ParseState) (l : String)
    (hm : (st.inManagedSection && pl) = false) (hb : isBodyLine l = true)
    (hcur : st.currentHost = none) :
    parseLine pl st l = st := by
  simp only [isBodyLine, Bool.and_eq_true, Bool.not_eq_true'] at hb
  obtain ⟨⟨⟨h1, h2⟩, h3⟩, h4⟩ := hb
  by_cases hblank : (goTrimSpace l == "") = true
  · simp [parseLine, h1, h2, h3, h4, hm, hblank, hcur]
  · rw [Bool.not_eq_true] at hblank
    simp [parseLine, h1, h2, h3, h4, hm, hblank, hcur]

theorem parseLine_host (pl : Bool) (st : ParseState) (l : String)
    (hm : (st.inManagedSection && pl) = false) (hh : isHostLine l = true) :
    parseLine pl st l =
      { st with
        hosts := flushHost st
        currentHost := some
          ⟨goTrimSpace (goDropChars (goTrimSpace l) 5), [l], st.comments,
           if st.inManagedSection then managedTag st.managedSectionName else "local"⟩
        comments := [] } := by
  simp only [isHostLine, Bool.and_eq_true, Bool.not_eq_true'] at hh
  obtain ⟨⟨⟨⟨h1, h2⟩, h3⟩, h4⟩, h5⟩ := hh
  simp [parseLine, h1, h2, h3, h4, h5, hm]

/-- C3 (amended): outside a preserve-local-discarded managed section, a
line starting with `#` (and not a section marker) is always buffered as a
pending comment — even while a host body is open, so it is never appended
to the open host's raw lines — and the buffer persists until the next
Host line consumes it; a blank or other non-directive, non-comment line
while a host is open is appended verbatim to that host's raw-line
list. -/
theorem parse_comment_and_body_lines (pl : Bool) (st : ParseState) (l : String)
    (h : ParsedHost) (hm : (st.inManagedSection && pl) = false) :
    (isCommentLine l = true →
      parseLine pl st l = { st with comments := st.comments ++ [l] })
    ∧ (isBodyLine l = true → st.currentHost = some h →
      parseLine pl st l
        = { st with currentHost := some { h with lines := h.lines ++ [l] } }) :=
  ⟨fun hc => parseLine_comment pl st l hm hc,
   fun hb hcur => parseLine_body pl st l h hm hb hcur⟩

theorem parse_comment_and_body_lines_witness :
    parseLine true ⟨[], some ⟨"a", ["Host a"], [], "local"⟩, false, "", []⟩ "# c"
        = ⟨[], some ⟨"a", ["Host a"], [], "local"⟩, false, "", ["# c"]⟩
      ∧ parseLine true ⟨[], some ⟨"a", ["Host a"], [], "local"⟩, false, "", []⟩ "    Hostname x"
        = ⟨[], some ⟨"a", ["Host a", "    Hostname x"], [], "local"⟩, false, "", []⟩ := by
  constructor
  · exact (parse_comment_and_body_lines true
      ⟨[], some ⟨"a", ["Host a"], [], "local"⟩, false, "", []⟩ "# c"
      ⟨"a", ["Host a"], [], "local"⟩ (by decide)).1 (by decide)
  · exact (parse_comment_and_body_lines true
      ⟨[], some ⟨"a", ["Host a"], [], "local"⟩, false, "", []⟩ "    Hostname x"
      ⟨"a", ["Host a"], [], "local"⟩ (by decide)).2 (by decide) rfl

/-- C3 counterexample: on `["# c", "", "Host a", "# d", "Host b"]` the
parser attaches `# c` to host `a` even though a blank line intervened
(the claim says the buffer clears), and `# d`, read while host `a` was
open, is buffered and attached to host `b` instead of being appended to
host `a`'s raw lines (the claim says it is appended verbatim). -/
theorem parse_comment_handling_cex :
    parseConfig true ["# c", "", "Host a", "# d", "Host b"]
        = [⟨"a", ["Host a"], ["# c"], "local"⟩, ⟨"b", ["Host b"], ["# d"], "local"⟩]
      ∧ (parseConfig true ["# c", "", "Host a", "# d", "Host b"]).map ParsedHost.lines
          ≠ [["Host a", "# d"], ["Host b"]]
      ∧ (parseConfig true ["# c", "", "Host a", "# d", "Host b"]).map ParsedHost.comments
          ≠ [[], []] :=
  ⟨by decide, by decide, by decide⟩

/-! ## C4 — ValidateHosts -/

theorem lookup_append {β : Type} (l1 l2 : List (String × β)) (a : String) :
    (l1 ++ l2).lookup a = ((l1.lookup a).orElse fun _ => l2.lookup a) := by
  induction l1 with
  | nil => simp [List.lookup]
  | cons p l ih =>
    obtain ⟨k, v⟩ := p
    cases hk : (a == k) <;> simp [List.lookup, hk, ih]

theorem lookup_host_pairs (xs : List Host) (n : String) :
    (xs.map (fun g => (g.name, g.source))).lookup n
      = (xs.find? (fun g => g.name == n)).map Host.source := by
  induction xs with
  | nil => rfl
  | cons g xs ih =>
    by_cases hgn : n = g.name
    · subst hgn
      simp [List.lookup, List.find?]
    · have h1 : (n == g.name) = false := by simpa using hgn
      have h2 : (g.name == n) = false := by
        simpa using fun he => hgn he.symm
      simp [List.lookup, List.find?, h1, h2, ih]

theorem validateHostsAux_clean (xs : List Host) (rest : List Host)
    (seen : List (String × String))
    (hv : ∀ g ∈ xs, g.validate = none)
    (hseen : ∀ g ∈ xs, seen.lookup g.name = none)
    (hnd : (xs.map Host.name).Nodup) :
    validateHostsAux (xs ++ rest) seen
      = validateHostsAux rest (seen ++ xs.map (fun g => (g.name, g.source))) := by
  induction xs generalizing seen with
  | nil => simp
  | cons g xs ih =>
    simp only [List.cons_append, validateHostsAux, hv g (List.mem_cons_self g xs),
      hseen g (List.mem_cons_self g xs)]
    simp only [List.map_cons, List.nodup_cons] at hnd
    have hstep := ih (seen ++ [(g.name, g.source)])
      (fun g2 hg2 => hv g2 (List.mem_cons_of_mem g hg2))
      (fun g2 hg2 => by
        rw [lookup_append, hseen g2 (List.mem_cons_of_mem g hg2)]
        have hne0 : g2.name ≠ g.name := by
          intro he
          exact hnd.1 (he ▸ List.mem_map_of_mem Host.name hg2)
        have hne : (g2.name == g.name) = false := by simpa using hne0
        simp [List.lookup, hne])
      hnd.2
    simp only [List.append_eq]
    rw [hstep]
    simp [List.append_assoc]

/-- C4 (amended): `ValidateHosts` succeeds on every list of
individually valid hosts with pairwise-distinct names, and on a list of
individually valid hosts whose first name repetition is `h` (after a
duplicate-free block `pre` already containing `h.name` at entry `p`) it
fails right there, naming both conflicting sources.  The amendment adds
the individual-validity requirement: `ValidateHosts` also runs
`Host.Validate` on every entry, so distinct names alone do not guarantee
success. -/
theorem validateHosts_unique_ok_and_first_dup
    (hosts pre suf : List Host) (h p : Host)
    (hv : ∀ g ∈ hosts, g.validate = none)
    (hnd : (hosts.map Host.name).Nodup)
    (hvp : ∀ g ∈ pre, g.validate = none) (hvh : h.validate = none)
    (hndp : (pre.map Host.name).Nodup)
    (hfind : pre.find? (fun g => g.name == h.name) = some p) :
    ValidateHosts hosts = Except.ok ()
      ∧ ValidateHosts (pre ++ h :: suf)
          = Except.error (dupErr h.name p.source h.source) := by
  constructor
  · have hc := validateHostsAux_clean hosts [] [] hv (fun g _ => rfl) hnd
    rw [List.append_nil] at hc
    rw [ValidateHosts, hc]
    rfl
  · have hc := validateHostsAux_clean pre (h :: suf) [] hvp (fun g _ => rfl) hndp
    rw [ValidateHosts, hc]
    simp [validateHostsAux, hvh, lookup_host_pairs, hfind]

theorem validateHosts_unique_ok_and_first_dup_witness :
    ValidateHosts
        [⟨"s1", "h1.example.com", "", 0, "", "", none, none, [], [], [], "file1", 0⟩,
         ⟨"s2", "h2.example.com", "", 0, "", "", none, none, [], [], [], "file2", 0⟩]
        = Except.ok ()
      ∧ ValidateHosts
          [⟨"server", "h1.example.com", "", 0, "", "", none, none, [], [], [], "file1", 0⟩,
           ⟨"server", "h2.example.com", "", 0, "", "", none, none, [], [], [], "file2", 0⟩]
          = Except.error (dupErr "server" "file1" "file2") := by
  have hmain := validateHosts_unique_ok_and_first_dup
    [⟨"s1", "h1.example.com", "", 0, "", "", none, none, [], [], [], "file1", 0⟩,
     ⟨"s2", "h2.example.com", "", 0, "", "", none, none, [], [], [], "file2", 0⟩]
    [⟨"server", "h1.example.com", "", 0, "", "", none, none, [], [], [], "file1", 0⟩]
    []
    ⟨"server", "h2.example.com", "", 0, "", "", none, none, [], [], [], "file2", 0⟩
    ⟨"server", "h1.example.com", "", 0, "", "", none, none, [], [], [], "file1", 0⟩
    (by decide) (by decide) (by decide) (by decide) (by decide) (by decide)
  exact hmain

/-- C4 counterexample: a singleton list has pairwise-distinct names, yet
`ValidateHosts` rejects it because the host itself is invalid (empty
hostname) — the claim's "for every list with distinct names it returns
success" does not hold as stated. -/
theorem validateHosts_distinct_names_cex :
    (List.map Host.name
        [⟨"a", "", "", 0, "", "", none, none, [], [], [], "s1", 0⟩]).Nodup
      ∧ ValidateHosts [⟨"a", "", "", 0, "", "", none, none, [], [], [], "s1", 0⟩]
          = Except.error "invalid host a: hostname cannot be empty for host a"
      ∧ ValidateHosts [⟨"a", "", "", 0, "", "", none, none, [], [], [], "s1", 0⟩]
          ≠ Except.ok () := by
  have heq : ValidateHosts [⟨"a", "", "", 0, "", "", none, none, [], [], [], "s1", 0⟩]
      = Except.error "invalid host a: hostname cannot be empty for host a" := rfl
  refine ⟨by decide, heq, fun hcontra => ?_⟩
  rw [heq] at hcontra
  exact Except.noConfusion hcontra

/-! ## C6 / C10 — DeduplicateHosts -/

theorem lookup_replaceEntry_same (m : List (String × Host)) (n : String) (h : Host)
    (hm : (m.lookup n).isSome = true) :
    (replaceEntry m n h).lookup n = some h := by
  induction m with
  | nil => simp [List.lookup] at hm
  | cons p m ih =>
    obtain ⟨k, v⟩ := p
    by_cases hk : k = n
    · subst hk
      simp [replaceEntry, List.lookup]
    · have h1 : (k == n) = false := by simpa using hk
      have h2 : (n == k) = false := by simpa using fun he => hk he.symm
      simp only [List.lookup, h2] at hm
      simp [replaceEntry, List.lookup, h1, h2, ih hm]

theorem lookup_replaceEntry_other (m : List (String × Host)) (n n2 : String) (h : Host)
    (hne : n2 ≠ n) :
    (replaceEntry m n h).lookup n2 = m.lookup n2 := by
  induction m with
  | nil => rfl
  | cons p m ih =>
    obtain ⟨k, v⟩ := p
    by_cases hk : k = n
    · subst hk
      have h2 : (n2 == k) = false := by simpa using hne
      simp [replaceEntry, List.lookup, h2]
    · have h1 : (k == n) = false := by simpa using hk
      cases h2 : (n2 == k) <;> simp [replaceEntry, List.lookup, h1, h2, ih]

theorem lookup_dedupStep_same (m : List (String × Host)) (g : Host) :
    (dedupStep m g).lookup g.name
      = some (match m.lookup g.name with
          | some c => if g.priority > c.priority then g else c
          | none => g) := by
  unfold dedupStep
  cases hm : m.lookup g.name with
  | none =>
    rw [lookup_append, hm]
    simp [List.lookup]
  | some c =>
    by_cases hp : g.priority > c.priority
    · simp only [hp, if_true]
      rw [lookup_replaceEntry_same m g.name g (by rw [hm]; rfl)]
    · simp [hp, hm]

theorem lookup_dedupStep_other (m : List (String × Host)) (g : Host) (n : String)
    (hne : n ≠ g.name) :
    (dedupStep m g).lookup n = m.lookup n := by
  unfold dedupStep
  cases hm : m.lookup g.name with
  | none =>
    rw [lookup_append]
    have h2 : (n == g.name) = false := by simpa using hne
    cases hn : m.lookup n <;> simp [List.lookup, h2]
  | some c =>
    by_cases hp : g.priority > c.priority
    · simp only [hp, if_true]
      exact lookup_replaceEntry_other m g.name n g hne
    · simp [hp]

theorem lookup_foldl_dedupStep (hosts : List Host) (m : List (String × Host)) (n : String) :
    ((hosts.foldl dedupStep m).lookup n)
      = foldKeep (m.lookup n) (hosts.filter (fun h => h.name == n)) := by
  induction hosts generalizing m with
  | nil => simp [foldKeep]
  | cons g hosts ih =>
    simp only [List.foldl_cons]
    by_cases hgn : g.name = n
    · subst hgn
      have hfil : (g :: hosts).filter (fun h => h.name == g.name)
          = g :: hosts.filter (fun h => h.name == g.name) := by
        simp [List.filter]
      rw [hfil, ih (dedupStep m g), lookup_dedupStep_same]
      cases hm : m.lookup g.name with
      | none => rfl
      | some c =>
        by_cases hp : g.priority > c.priority <;> simp [foldKeep, hp]
    · have h2 : (g.name == n) = false := by simpa using hgn
      have hfil : (g :: hosts).filter (fun h => h.name == n)
          = hosts.filter (fun h => h.name == n) := by
        simp [List.filter, h2]
      rw [hfil, ih (dedupStep m g),
        lookup_dedupStep_other m g n (fun he => hgn he.symm)]

theorem find?_congr_of_mem {p q : Host → Bool} (l : List Host)
    (hpq : ∀ x ∈ l, p x = q x) : l.find? p = l.find? q := by
  induction l with
  | nil => rfl
  | cons x l ih =>
    have hx := hpq x (List.mem_cons_self x l)
    cases hq : q x with
    | true => simp [List.find?, hx, hq]
    | false =>
      simp only [List.find?, hx, hq]
      exact ih fun y hy => hpq y (List.mem_cons_of_mem x hy)

theorem allLe_cons (c x : Host) (l : List Host) :
    allLe (c :: l) x = (decide (c.priority ≤ x.priority) && allLe l x) := by
  simp [allLe]

theorem foldKeep_some_firstMax (t : List Host) (c : Host) :
    foldKeep (some c) t = firstMax (c :: t) := by
  induction t generalizing c with
  | nil =>
    simp [foldKeep, firstMax, List.find?, allLe]
  | cons h t ih =>
    by_cases hp : h.priority > c.priority
    · have hskip : ¬allLe (c :: h :: t) c = true := by
        simp only [allLe, List.all_eq_true]
        intro hall
        have := hall h (List.mem_cons_of_mem c (List.mem_cons_self h t))
        simp only [decide_eq_true_eq] at this
        exact absurd this (not_le.mpr hp)
      have hcongr : (h :: t).find? (allLe (c :: h :: t)) = (h :: t).find? (allLe (h :: t)) := by
        apply find?_congr_of_mem
        intro x hx
        rw [allLe_cons]
        cases hs : allLe (h :: t) x with
        | false => simp
        | true =>
          have hhx : decide (h.priority ≤ x.priority) = true := by
            have hs2 := hs
            simp only [allLe, List.all_cons, Bool.and_eq_true] at hs2
            exact hs2.1
          have hcx : decide (c.priority ≤ x.priority) = true := by
            simp only [decide_eq_true_eq] at hhx ⊢
            exact le_trans (le_of_lt hp) hhx
          simp [hcx]
      have hbig : firstMax (c :: h :: t) = firstMax (h :: t) := by
        unfold firstMax
        rw [List.find?_cons_of_neg (h :: t) hskip]
        exact hcongr
      rw [foldKeep, if_pos hp, ih h, hbig]
    · have hle : h.priority ≤ c.priority := not_lt.mp hp
      have hceq : allLe (c :: h :: t) c = allLe (c :: t) c := by
        simp only [allLe, List.all_cons]
        have hd : decide (h.priority ≤ c.priority) = true := by simpa using hle
        rw [hd]
        simp
      rw [foldKeep, if_neg hp, ih c]
      cases hcc : allLe (c :: t) c with
      | true =>
        have hcc2 : allLe (c :: h :: t) c = true := by rw [hceq]; exact hcc
        unfold firstMax
        rw [List.find?_cons_of_pos t hcc, List.find?_cons_of_pos (h :: t) hcc2]
      | false =>
        obtain ⟨y, hy, hyc⟩ : ∃ y ∈ t, ¬decide (y.priority ≤ c.priority) = true := by
          by_contra hno
          push_neg at hno
          have hallc : allLe (c :: t) c = true := by
            simp only [allLe, List.all_eq_true]
            intro x hxm
            rcases List.mem_cons.mp hxm with hxc | hxt
            · subst hxc
              simp
            · exact hno x hxt
          rw [hcc] at hallc
          exact Bool.false_ne_true hallc
        have hylt : c.priority < y.priority := by
          simpa using not_le.mp (by simpa using hyc)
        have hbigc : ¬allLe (c :: h :: t) c = true := by
          rw [hceq, hcc]
          simp
        have hsmallc : ¬allLe (c :: t) c = true := by
          rw [hcc]
          simp
        have hbigh : ¬allLe (c :: h :: t) h = true := by
          simp only [allLe, List.all_eq_true]
          intro hall
          have := hall y (List.mem_cons_of_mem c (List.mem_cons_of_mem h hy))
          simp only [decide_eq_true_eq] at this
          exact absurd this (not_le.mpr (lt_of_le_of_lt hle hylt))
        unfold firstMax
        rw [List.find?_cons_of_neg t hsmallc, List.find?_cons_of_neg (h :: t) hbigc,
          List.find?_cons_of_neg t hbigh]
        apply find?_congr_of_mem
        intro x hx
        rw [allLe_cons, allLe_cons, allLe_cons]
        cases hcx : decide (c.priority ≤ x.priority) with
        | false => simp
        | true =>
          have hhx : decide (h.priority ≤ x.priority) = true := by
            simp only [decide_eq_true_eq] at hcx ⊢
            exact le_trans hle hcx
          simp [hhx]

theorem foldKeep_none_firstMax (l : List Host) :
    foldKeep none l = firstMax l := by
  cases l with
  | nil => rfl
  | cons h t =>
    rw [foldKeep]
    exact foldKeep_some_firstMax t h

theorem foldKeep_some_isSome (t : List Host) (c : Host) :
    (foldKeep (some c) t).isSome = true := by
  induction t generalizing c with
  | nil => rfl
  | cons h t ih =>
    rw [foldKeep]
    split
    · exact ih h
    · exact ih c

theorem keys_replaceEntry (m : List (String × Host)) (n : String) (h : Host) :
    (replaceEntry m n h).map Prod.fst = m.map Prod.fst := by
  induction m with
  | nil => rfl
  | cons p m ih =>
    obtain ⟨k, v⟩ := p
    by_cases hk : k = n
    · have h1 : (k == n) = true := by simpa using hk
      simp [replaceEntry, h1]
    · have h1 : (k == n) = false := by simpa using hk
      simp [replaceEntry, h1, ih]

theorem lookup_none_iff_not_mem_keys {β : Type} (m : List (String × β)) (n : String) :
    m.lookup n = none ↔ n ∉ m.map Prod.fst := by
  induction m with
  | nil => simp [List.lookup]
  | cons p m ih =>
    obtain ⟨k, v⟩ := p
    by_cases hk : n = k
    · subst hk
      simp [List.lookup]
    · have h1 : (n == k) = false := by simpa using hk
      simp [List.lookup, h1, ih, hk]

theorem keys_nodup_foldl_dedupStep (hosts : List Host) (m : List (String × Host))
    (hm : (m.map Prod.fst).Nodup) :
    (((hosts.foldl dedupStep m).map Prod.fst)).Nodup := by
  induction hosts generalizing m with
  | nil => exact hm
  | cons g hosts ih =>
    simp only [List.foldl_cons]
    apply ih
    unfold dedupStep
    cases hlk : m.lookup g.name with
    | none =>
      have hnotmem : g.name ∉ m.map Prod.fst := (lookup_none_iff_not_mem_keys m g.name).mp hlk
      simp [List.nodup_append, hm, hnotmem]
    | some c =>
      by_cases hp : g.priority > c.priority
      · simpa [hp, keys_replaceEntry] using hm
      · simpa [hp] using hm

theorem lookup_hostMap (hosts : List Host) (n : String) :
    (hostMap hosts).lookup n = foldKeep none (hosts.filter (fun h => h.name == n)) := by
  rw [hostMap, lookup_foldl_dedupStep]
  rfl

/-- C10: the dedup loop resolves equal-priority duplicates by first
occurrence — for every host list and name, the kept entry is the
earliest-occurring host of that name's group having the maximal
priority, because a later same-named host replaces the kept one only
when its priority is strictly greater. -/
theorem dedup_keeps_first_occurrence_of_max (hosts : List Host) (n : String) :
    (hostMap hosts).lookup n = firstMax (hosts.filter (fun h => h.name == n)) := by
  rw [lookup_hostMap]
  exact foldKeep_none_firstMax _

/-- C6: deduplication returns exactly one host per distinct input name
(the name map has duplicate-free keys and holds a name iff it occurs in
the input), the kept entry belongs to its name group and carries the
group's maximal priority, and on the claim's concrete example — host A
with priority 10 from `personal` and priority 20 from `work`, in either
input order — the entry from `work` survives and the one from `personal`
does not. -/
theorem dedup_one_per_name_highest_priority :
    (∀ hosts : List Host, ((hostMap hosts).map Prod.fst).Nodup)
    ∧ (∀ (hosts : List Host) (n : String),
        ((hostMap hosts).lookup n).isSome = true ↔ n ∈ hosts.map Host.name)
    ∧ (∀ (hosts : List Host) (n : String) (kept : Host),
        (hostMap hosts).lookup n = some kept →
          kept ∈ hosts.filter (fun h => h.name == n)
            ∧ ∀ g ∈ hosts.filter (fun h => h.name == n), g.priority ≤ kept.priority)
    ∧ DeduplicateHosts
        [⟨"A", "h1", "", 0, "", "", none, none, [], [], [], "personal", 10⟩,
         ⟨"A", "h2", "", 0, "", "", none, none, [], [], [], "work", 20⟩]
        = [⟨"A", "h2", "", 0, "", "", none, none, [], [], [], "work", 20⟩]
    ∧ DeduplicateHosts
        [⟨"A", "h2", "", 0, "", "", none, none, [], [], [], "work", 20⟩,
         ⟨"A", "h1", "", 0, "", "", none, none, [], [], [], "personal", 10⟩]
        = [⟨"A", "h2", "", 0, "", "", none, none, [], [], [], "work", 20⟩] := by
  refine ⟨?_, ?_, ?_, by decide, by decide⟩
  · intro hosts
    exact keys_nodup_foldl_dedupStep hosts [] (by simp)
  · intro hosts n
    rw [lookup_hostMap]
    constructor
    · intro hs
      cases hfil : hosts.filter (fun h => h.name == n) with
      | nil =>
        rw [hfil] at hs
        simp [foldKeep] at hs
      | cons h t =>
        have hh : h ∈ hosts.filter (fun h2 => h2.name == n) := by
          rw [hfil]
          exact List.mem_cons_self h t
        have hmem := List.mem_filter.mp hh
        exact List.mem_map.mpr ⟨h, hmem.1, by simpa using hmem.2⟩
    · intro hn
      obtain ⟨h, hh, heq⟩ := List.mem_map.mp hn
      have hfmem : h ∈ hosts.filter (fun h2 => h2.name == n) :=
        List.mem_filter.mpr ⟨hh, by simp [heq]⟩
      cases hfil : hosts.filter (fun h2 => h2.name == n) with
      | nil =>
        rw [hfil] at hfmem
        exact absurd hfmem (List.not_mem_nil h)
      | cons h0 t =>
        exact foldKeep_some_isSome t h0
  · intro hosts n kept hlk
    rw [lookup_hostMap, foldKeep_none_firstMax] at hlk
    refine ⟨List.mem_of_find?_eq_some hlk, ?_⟩
    intro g hg
    have hall := List.find?_some hlk
    simp only [allLe, List.all_eq_true] at hall
    have := hall g hg
    simpa using this

theorem dedup_one_per_name_highest_priority_witness :
    ((⟨"A", "h2", "", 0, "", "", none, none, [], [], [], "work", 20⟩ : Host)
        ∈ List.filter (fun h => h.name == "A")
            ([⟨"A", "h1", "", 0, "", "", none, none, [], [], [], "personal", 10⟩,
              ⟨"A", "h2", "", 0, "", "", none, none, [], [], [], "work", 20⟩] : List Host))
      ∧ ∀ g ∈ List.filter (fun h => h.name == "A")
            ([⟨"A", "h1", "", 0, "", "", none, none, [], [], [], "personal", 10⟩,
              ⟨"A", "h2", "", 0, "", "", none, none, [], [], [], "work", 20⟩] : List Host),
          g.priority
            ≤ (⟨"A", "h2", "", 0, "", "", none, none, [], [], [], "work", 20⟩ : Host).priority :=
  dedup_one_per_name_highest_priority.2.2.1
    [⟨"A", "h1", "", 0, "", "", none, none, [], [], [], "personal", 10⟩,
     ⟨"A", "h2", "", 0, "", "", none, none, [], [], [], "work", 20⟩]
    "A" ⟨"A", "h2", "", 0, "", "", none, none, [], [], [], "work", 20⟩ (by decide)

/-! ## C5 — linear write / parse round trip -/

theorem wfParsed_destruct (e : ParsedHost) (hwf : wfParsed e = true) :
    ∃ first tail, e.lines = first :: tail ∧ isHostLine first = true
      ∧ (∀ l ∈ tail, isBodyLine l = true)
      ∧ ∀ c ∈ e.comments, isCommentLine c = true := by
  unfold wfParsed at hwf
  rw [Bool.and_eq_true] at hwf
  obtain ⟨h1, h2⟩ := hwf
  cases hel : e.lines with
  | nil =>
    simp only [hel] at h1
    exact absurd h1 Bool.false_ne_true
  | cons first tail =>
    simp only [hel, Bool.and_eq_true] at h1
    exact ⟨first, tail, rfl, h1.1,
      fun l hl => List.all_eq_true.mp h1.2 l hl,
      fun c hc => List.all_eq_true.mp h2 c hc⟩

theorem parseLine_comment_mk (pl : Bool) (hs : List ParsedHost) (cur : Option ParsedHost)
    (ms : Bool) (mn : String) (cm : List String) (l : String)
    (hm : (ms && pl) = false) (hc : isCommentLine l = true) :
    parseLine pl ⟨hs, cur, ms, mn, cm⟩ l = ⟨hs, cur, ms, mn, cm ++ [l]⟩ := by
  simp only [isCommentLine, Bool.and_eq_true, Bool.not_eq_true'] at hc
  obtain ⟨⟨h1, h2⟩, h3⟩ := hc
  simp [parseLine, h1, h2, h3, hm]

theorem parseLine_body_mk (pl : Bool) (hs : List ParsedHost)
    (nm : String) (lns cms : List String) (src : String)
    (ms : Bool) (mn : String) (cm : List String) (l : String)
    (hm : (ms && pl) = false) (hb : isBodyLine l = true) :
    parseLine pl ⟨hs, some ⟨nm, lns, cms, src⟩, ms, mn, cm⟩ l
      = ⟨hs, some ⟨nm, lns ++ [l], cms, src⟩, ms, mn, cm⟩ := by
  simp only [isBodyLine, Bool.and_eq_true, Bool.not_eq_true'] at hb
  obtain ⟨⟨⟨h1, h2⟩, h3⟩, h4⟩ := hb
  by_cases hblank : (goTrimSpace l == "") = true
  · simp [parseLine, h1, h2, h3, h4, hm, hblank]
  · rw [Bool.not_eq_true] at hblank
    simp [parseLine, h1, h2, h3, h4, hm, hblank]

theorem parseLine_host_mk (pl : Bool) (hs : List ParsedHost) (cur : Option ParsedHost)
    (ms : Bool) (mn : String) (cm : List String) (l : String)
    (hm : (ms && pl) = false) (hh : isHostLine l = true) :
    parseLine pl ⟨hs, cur, ms, mn, cm⟩ l
      = ⟨flushHost ⟨hs, cur, ms, mn, cm⟩,
         some ⟨goTrimSpace (goDropChars (goTrimSpace l) 5), [l], cm,
               if ms then managedTag mn else "local"⟩,
         ms, mn, []⟩ := by
  simp only [isHostLine, Bool.and_eq_true, Bool.not_eq_true'] at hh
  obtain ⟨⟨⟨⟨h1, h2⟩, h3⟩, h4⟩, h5⟩ := hh
  simp [parseLine, h1, h2, h3, h4, h5, hm]

theorem foldl_parseLine_comments_mk (pl : Bool) (cs : List String) (hs : List ParsedHost)
    (cur : Option ParsedHost) (ms : Bool) (mn : String) (cm : List String)
    (hm : (ms && pl) = false) (hcs : ∀ c ∈ cs, isCommentLine c = true) :
    cs.foldl (parseLine pl) ⟨hs, cur, ms, mn, cm⟩ = ⟨hs, cur, ms, mn, cm ++ cs⟩ := by
  induction cs generalizing cm with
  | nil => simp
  | cons c cs ih =>
    rw [List.foldl_cons,
      parseLine_comment_mk pl hs cur ms mn cm c hm (hcs c (List.mem_cons_self c cs)),
      ih (cm ++ [c]) (fun c2 hc2 => hcs c2 (List.mem_cons_of_mem c hc2))]
    simp

theorem foldl_parseLine_body_mk (pl : Bool) (ts : List String) (hs : List ParsedHost)
    (nm : String) (lns cms : List String) (src : String)
    (ms : Bool) (mn : String) (cm : List String)
    (hm : (ms && pl) = false) (hts : ∀ l ∈ ts, isBodyLine l = true) :
    ts.foldl (parseLine pl) ⟨hs, some ⟨nm, lns, cms, src⟩, ms, mn, cm⟩
      = ⟨hs, some ⟨nm, lns ++ ts, cms, src⟩, ms, mn, cm⟩ := by
  induction ts generalizing lns with
  | nil => simp
  | cons t ts ih =>
    rw [List.foldl_cons,
      parseLine_body_mk pl hs nm lns cms src ms mn cm t hm (hts t (List.mem_cons_self t ts)),
      ih (lns ++ [t]) (fun l hl => hts l (List.mem_cons_of_mem t hl))]
    simp

theorem foldl_parseLine_entry_mk (pl : Bool) (e : ParsedHost) (first : String)
    (tail : List String) (hs : List ParsedHost) (cur : Option ParsedHost)
    (mn : String) (cm : List String)
    (hfl : e.lines = first :: tail)
    (hfirst : isHostLine first = true)
    (htail : ∀ l ∈ tail, isBodyLine l = true)
    (hcs : ∀ c ∈ e.comments, isCommentLine c = true) :
    (e.comments ++ e.lines).foldl (parseLine pl) ⟨hs, cur, false, mn, cm⟩
      = ⟨flushHost ⟨hs, cur, false, mn, cm⟩,
         some ⟨goTrimSpace (goDropChars (goTrimSpace first) 5), first :: tail,
               cm ++ e.comments, "local"⟩,
         false, mn, []⟩ := by
  rw [List.foldl_append,
    foldl_parseLine_comments_mk pl e.comments hs cur false mn cm rfl hcs, hfl,
    List.foldl_cons,
    parseLine_host_mk pl hs cur false mn (cm ++ e.comments) first rfl hfirst,
    foldl_parseLine_body_mk pl tail _ _ _ _ _ false mn [] rfl htail]
  simp [flushHost]

theorem parse_writeLinear_aux (pl : Bool) (es : List ParsedHost) (hs : List ParsedHost)
    (cur : Option ParsedHost) (mn : String) (cm : List String)
    (hwf : ∀ e ∈ es, wfParsed e = true) :
    (flushHost ((writeLinearConfig es).foldl (parseLine pl) ⟨hs, cur, false, mn, cm⟩)).map
        ParsedHost.lines
      = (flushHost ⟨hs, cur, false, mn, cm⟩).map ParsedHost.lines ++ linesWithSeps es := by
  induction es generalizing hs cur mn cm with
  | nil => simp [writeLinearConfig, linesWithSeps]
  | cons e es ih =>
    obtain ⟨first, tail, hfl, hfirst, htail, hcs⟩ :=
      wfParsed_destruct e (hwf e (List.mem_cons_self e es))
    cases es with
    | nil =>
      show (flushHost ((e.comments ++ e.lines).foldl (parseLine pl)
          ⟨hs, cur, false, mn, cm⟩)).map ParsedHost.lines = _
      rw [foldl_parseLine_entry_mk pl e first tail hs cur mn cm hfl hfirst htail hcs]
      simp [flushHost, linesWithSeps, hfl]
    | cons e2 es2 =>
      show (flushHost
          ((e.comments ++ e.lines ++ [""] ++ writeLinearConfig (e2 :: es2)).foldl
            (parseLine pl) ⟨hs, cur, false, mn, cm⟩)).map ParsedHost.lines = _
      rw [List.foldl_append, List.foldl_append,
        foldl_parseLine_entry_mk pl e first tail hs cur mn cm hfl hfirst htail hcs,
        show ∀ st2 : ParseState, List.foldl (parseLine pl) st2 [""]
          = parseLine pl st2 "" from fun st2 => rfl,
        parseLine_body_mk pl _ _ _ _ _ false mn [] "" rfl rfl,
        ih _ _ _ _ (fun e3 he3 => hwf e3 (List.mem_cons_of_mem e he3))]
      simp only [flushHost, linesWithSeps, List.map_append, List.append_assoc, hfl]
      rfl

/-- C5 (amended): for well-formed entries — raw lines a Host directive
followed by body lines that are not comments, markers or further Host
directives, comments actual comment lines — parsing the linear write
reproduces exactly the input raw-line lists with the writer's synthetic
blank separator appended to every entry but the last.  The claim's
unrestricted "for every list of entries" fails: a comment raw line is
diverted into the comment buffer instead of being replayed. -/
theorem parse_writeLinear_roundtrip (pl : Bool) (es : List ParsedHost)
    (hwf : ∀ e ∈ es, wfParsed e = true) :
    (parseConfig pl (writeLinearConfig es)).map ParsedHost.lines = linesWithSeps es := by
  rw [parseConfig, show initialParseState = ⟨[], none, false, "", []⟩ from rfl,
    parse_writeLinear_aux pl es [] none "" [] hwf]
  rfl

theorem parse_writeLinear_roundtrip_witness :
    (parseConfig true (writeLinearConfig
        [⟨"a", ["Host a", "    Hostname x"], ["# one"], "local"⟩,
         ⟨"b", ["Host b"], [], "local"⟩])).map ParsedHost.lines
      = linesWithSeps
          [⟨"a", ["Host a", "    Hostname x"], ["# one"], "local"⟩,
           ⟨"b", ["Host b"], [], "local"⟩] :=
  parse_writeLinear_roundtrip true
    [⟨"a", ["Host a", "    Hostname x"], ["# one"], "local"⟩,
     ⟨"b", ["Host b"], [], "local"⟩] (by decide)

/-- C5 counterexample: the claim quantifies over every list of entries,
but an entry whose raw-line list is a single comment line is not
reproduced at all — the parser diverts the line into its comment buffer
and returns no host. -/
theorem parse_writeLinear_roundtrip_cex :
    (parseConfig true (writeLinearConfig [⟨"a", ["# x"], [], "local"⟩])).map ParsedHost.lines
        = []
      ∧ (parseConfig true (writeLinearConfig [⟨"a", ["# x"], [], "local"⟩])).map
          ParsedHost.lines ≠ [["# x"]] :=
  ⟨by decide, by decide⟩

/-! ## C8 — grouped writer -/

theorem lookup_groupInsert_self (m : List (String × List ParsedHost)) (h : ParsedHost) :
    (groupInsert m h).lookup h.source = some (((m.lookup h.source).getD []) ++ [h]) := by
  induction m with
  | nil => simp [groupInsert, List.lookup]
  | cons p m ih =>
    obtain ⟨k, v⟩ := p
    by_cases hk : k = h.source
    · subst hk
      simp [groupInsert, List.lookup]
    · have h1 : (k == h.source) = false := by simpa using hk
      have h2 : (h.source == k) = false := by simpa using fun he => hk he.symm
      simp [groupInsert, List.lookup, h1, h2, ih]

theorem lookup_groupInsert_other (m : List (String × List ParsedHost)) (h : ParsedHost)
    (n : String) (hne : n ≠ h.source) :
    (groupInsert m h).lookup n = m.lookup n := by
  induction m with
  | nil =>
    have h2 : (n == h.source) = false := by simpa using hne
    simp [groupInsert, List.lookup, h2]
  | cons p m ih =>
    obtain ⟨k, v⟩ := p
    by_cases hk : k = h.source
    · subst hk
      have h2 : (n == h.source) = false := by simpa using hne
      simp [groupInsert, List.lookup, h2, ih]
    · have h1 : (k == h.source) = false := by simpa using hk
      cases h2 : (n == k) <;> simp [groupInsert, List.lookup, h1, h2, ih]

theorem lookup_foldl_groupInsert (hosts : List ParsedHost)
    (m : List (String × List ParsedHost)) (src : String) :
    ((hosts.foldl groupInsert m).lookup src).getD []
      = ((m.lookup src).getD []) ++ hosts.filter (fun h => h.source == src) := by
  induction hosts generalizing m with
  | nil => simp
  | cons h hosts ih =>
    simp only [List.foldl_cons]
    by_cases hsrc : h.source = src
    · subst hsrc
      rw [ih (groupInsert m h), lookup_groupInsert_self]
      simp [List.filter_cons, List.append_assoc]
    · rw [ih (groupInsert m h),
        lookup_groupInsert_other m h src (fun he => hsrc he.symm)]
      have h2 : (h.source == src) = false := by simpa using hsrc
      simp [List.filter_cons, h2]

theorem groupedOf_lookup_filter (hosts : List ParsedHost) (src : String) :
    ((groupedOf hosts).lookup src).getD [] = hosts.filter (fun h => h.source == src) := by
  rw [groupedOf, lookup_foldl_groupInsert]
  rfl

theorem string_mk_data (s : String) : String.mk s.data = s := rfl

theorem stripLeading_managedTag (s : String) :
    goStripLeading (managedTag s) "managed:" = s := by
  unfold goStripLeading goStartsWith managedTag
  have hpre : ("managed:".data).isPrefixOf (("managed:" ++ s).data) = true := by
    rw [String.data_append]
    exact List.isPrefixOf_iff_prefix.mpr (List.prefix_append _ _)
  rw [if_pos hpre, String.data_append]
  have hdrop : List.drop "managed:".data.length ("managed:".data ++ s.data) = s.data :=
    List.drop_left _ _
  rw [hdrop, string_mk_data]

/-- C8: the grouped writer prints the `local`-tagged entries first as one
block (comments then lines per entry, blank lines between entries, one
blank line after the block), then every other distinct tag in
first-appearance order as its entries wrapped in BEGIN/END markers with
one blank line between hosts and one blank line after the closing
marker; in particular, for one local host and one host managed by a
source, the output is the local block, a blank line, the BEGIN marker,
the managed host's lines, the END marker, and a final blank line. -/
theorem writeGrouped_spec_order :
    (∀ hosts : List ParsedHost, writeGroupedConfig hosts = writeGroupedSpec hosts)
    ∧ ∀ (l m : ParsedHost) (srcName : String),
        l.source = "local" → m.source = managedTag srcName →
        writeGroupedConfig [l, m]
          = l.comments ++ l.lines ++ [""]
            ++ [beginMarker ++ " " ++ srcName ++ " ==="] ++ m.lines
            ++ [endMarker ++ " " ++ srcName ++ " ===", ""] := by
  constructor
  · intro hosts
    unfold writeGroupedConfig writeGroupedSpec
    simp only [groupedOf_lookup_filter]
  · intro l m srcName hl hm
    obtain ⟨ln, lls, lcs, lsrc⟩ := l
    obtain ⟨mn, mls, mcs, msrc⟩ := m
    simp only [] at hl hm
    subst hl
    subst hm
    have h1 : (managedTag srcName == "local") = false := by
      simpa using managedTag_ne_local srcName
    have h2 : ("local" == managedTag srcName) = false := by
      simpa using fun he => managedTag_ne_local srcName he.symm
    have h3 : managedTag srcName ≠ "local" := managedTag_ne_local srcName
    have h4 : ¬("local" = managedTag srcName) := fun he => managedTag_ne_local srcName he.symm
    simp [writeGroupedConfig, groupedOf, groupInsert, collectSources, List.lookup,
      h1, h2, h3, h4, managedSection, blankSepBlocks, stripLeading_managedTag,
      List.append_assoc]

theorem writeGrouped_spec_order_witness :
    writeGroupedConfig
        [⟨"lh", ["Host lh", "    Hostname l.test"], ["# loc"], "local"⟩,
         ⟨"mh", ["Host mh", "    Hostname m.test"], [], managedTag "p"⟩]
      = ["# loc"] ++ ["Host lh", "    Hostname l.test"] ++ [""]
        ++ [beginMarker ++ " " ++ "p" ++ " ==="] ++ ["Host mh", "    Hostname m.test"]
        ++ [endMarker ++ " " ++ "p" ++ " ===", ""] :=
  writeGrouped_spec_order.2
    ⟨"lh", ["Host lh", "    Hostname l.test"], ["# loc"], "local"⟩
    ⟨"mh", ["Host mh", "    Hostname m.test"], [], managedTag "p"⟩
    "p" rfl rfl
